import Mathlib

/-
Verification of the Markov-state-model estimation core described by the
repository's design specification.  The repository itself consists of
tutorial notebooks that delegate every algorithm (transition counting,
connectivity analysis, transition-matrix estimation, spectral analysis,
Chapman-Kolmogorov validation) to an external MSM library; the design
document reconstructs that core.  The definitions below embed that core,
each one modelled from the specification's description of the missing
library component, and the theorems settle the specification's claims
against the embedding.  Counts are exact naturals and probabilities exact
rationals, so floating-point tolerance statements become exact equalities.
-/

/-- Modelled from the spec: a DiscreteTrajectory is an ordered sequence of
non-negative integer state labels, one per observed time step. -/
abbrev DTraj : Type := List ℕ

/-- Modelled from the spec (CountEstimator, §4.1): one increment step of the
counting loop — given the accumulated count matrix `A`, a trajectory `t`,
the lag `tau` and a start offset `s`, add one to entry
(t[s], t[s+tau]). -/
def bumpCount (tau : ℕ) (t : DTraj) (A : ℕ → ℕ → ℕ) (s : ℕ) : ℕ → ℕ → ℕ :=
  fun x y => if x = t.getD s 0 ∧ y = t.getD (s + tau) 0 then A x y + 1 else A x y

/-- Modelled from the spec (CountEstimator, §4.1): for one trajectory of
length L, loop over all start offsets s from 0 to L-tau-1 and increment
count[t[s]][t[s+tau]] — sliding-window counting over all overlapping
offsets. -/
def countOne (tau : ℕ) (t : DTraj) (A : ℕ → ℕ → ℕ) : ℕ → ℕ → ℕ :=
  (List.range (t.length - tau)).foldl (bumpCount tau t) A

/-- Modelled from the spec (CountEstimator, §4.1): the count matrix of a
trajectory set at lag `tau`, accumulated trajectory by trajectory starting
from the zero matrix. -/
def countMatrix (tau : ℕ) (trajs : List DTraj) : ℕ → ℕ → ℕ :=
  trajs.foldl (fun A t => countOne tau t A) (fun _ _ => 0)

/-- Modelled from the spec: the number of transition counts contributed by a
single trajectory at lag `tau` (L - tau valid start offsets; zero when the
trajectory is shorter than tau+1). -/
def trajContribution (tau : ℕ) (t : DTraj) : ℕ := t.length - tau

/-- Modelled from the spec: total number of transition counts over all
trajectories at lag `tau`. -/
def totalCounts (tau : ℕ) (trajs : List DTraj) : ℕ :=
  (trajs.map (trajContribution tau)).sum

/-- Modelled from the spec (§7): the structured error taxonomy of the
estimation pipeline. -/
inductive EstimationError where
  | insufficientData
  | reversibleEstimationDidNotConverge
  | inconsistentState
  | degenerateStationaryDistribution
  | notStochastic
deriving DecidableEq

/-- Modelled from the spec (CountEstimator, §4.1): the estimator fails with
InsufficientDataError when the total counts are zero, and otherwise returns
the count matrix. -/
def countEstimator (tau : ℕ) (trajs : List DTraj) :
    Except EstimationError (ℕ → ℕ → ℕ) :=
  if totalCounts tau trajs = 0 then Except.error EstimationError.insufficientData
  else Except.ok (countMatrix tau trajs)

/-- Modelled from the spec (CountMatrix, §3): the declarative count — the
number of start offsets s in a single trajectory with t[s] = i and
t[s+tau] = j. -/
def slidingCount (tau : ℕ) (t : DTraj) (i j : ℕ) : ℕ :=
  (List.range (t.length - tau)).countP
    (fun s => decide (i = t.getD s 0 ∧ j = t.getD (s + tau) 0))

/-- Modelled from the spec (CountMatrix, §3): entry (i,j) is the number of
(trajectory, offset) pairs with t[s] = i and t[s+tau] = j, summed across all
trajectories. -/
def specCount (tau : ℕ) (trajs : List DTraj) (i j : ℕ) : ℕ :=
  (trajs.map (fun t => slidingCount tau t i j)).sum

theorem countOne_apply (tau : ℕ) (t : DTraj) (A : ℕ → ℕ → ℕ) (i j : ℕ) :
    countOne tau t A i j = A i j + slidingCount tau t i j := by
  unfold countOne slidingCount
  generalize List.range (t.length - tau) = L
  induction L generalizing A with
  | nil => simp
  | cons s L ih =>
      rw [List.foldl_cons, ih, List.countP_cons]
      unfold bumpCount
      by_cases h : i = t.getD s 0 ∧ j = t.getD (s + tau) 0
      · rw [if_pos h, decide_eq_true h]
        simp only [if_true]
        omega
      · rw [if_neg h, decide_eq_false h]
        simp only [Bool.false_eq_true, if_false]
        omega

theorem countMatrix_apply (tau : ℕ) (trajs : List DTraj) (i j : ℕ) :
    countMatrix tau trajs i j = specCount tau trajs i j := by
  unfold countMatrix specCount
  have key : ∀ (A : ℕ → ℕ → ℕ),
      (trajs.foldl (fun A t => countOne tau t A) A) i j
        = A i j + (trajs.map (fun t => slidingCount tau t i j)).sum := by
    induction trajs with
    | nil => intro A; simp
    | cons t ts ih =>
        intro A
        rw [List.foldl_cons, ih, countOne_apply, List.map_cons, List.sum_cons]
        omega
  rw [key]
  simp

theorem slidingCount_short (tau : ℕ) (t : DTraj) (h : t.length < tau + 1)
    (i j : ℕ) : slidingCount tau t i j = 0 := by
  unfold slidingCount
  have : t.length - tau = 0 := by omega
  simp [this]

theorem specCount_filter_long (tau : ℕ) (trajs : List DTraj) (i j : ℕ) :
    specCount tau trajs i j
      = specCount tau (trajs.filter (fun t => tau + 1 ≤ t.length)) i j := by
  unfold specCount
  induction trajs with
  | nil => simp
  | cons u us ih =>
      rw [List.filter_cons]
      by_cases hu : tau + 1 ≤ u.length
      · rw [if_pos (decide_eq_true hu), List.map_cons, List.sum_cons,
          List.map_cons, List.sum_cons, ih]
      · rw [if_neg (by simp [hu]), List.map_cons, List.sum_cons,
          slidingCount_short tau u (by omega), Nat.zero_add, ih]

/-- C8: for every trajectory set and lag τ, the count matrix entry (i,j)
produced by the incremental counting loop equals the number of
(trajectory, offset) pairs with offset s ranging over 0..L-τ-1 such that
traj[s] = i and traj[s+τ] = j, summed across all trajectories —
sliding-window counting over all overlapping offsets. -/
theorem claim8_sliding_window_counting (tau : ℕ) (trajs : List DTraj)
    (i j : ℕ) : countMatrix tau trajs i j = specCount tau trajs i j :=
  countMatrix_apply tau trajs i j

/-- C7: the CountEstimator fails with InsufficientDataError exactly when the
total number of counts over all trajectories is zero; a trajectory shorter
than τ+1 contributes zero counts to every entry; and when at least one
trajectory has length ≥ τ+1 the estimation succeeds, its result using only
the trajectories that are long enough. -/
theorem claim7_insufficient_data (tau : ℕ) (trajs : List DTraj) :
    (countEstimator tau trajs = Except.error EstimationError.insufficientData
        ↔ totalCounts tau trajs = 0)
    ∧ (∀ t : DTraj, t.length < tau + 1 →
        ∀ (A : ℕ → ℕ → ℕ) (i j : ℕ), countOne tau t A i j = A i j)
    ∧ ((∃ t ∈ trajs, tau + 1 ≤ t.length) →
        countEstimator tau trajs = Except.ok (countMatrix tau trajs)
        ∧ ∀ i j : ℕ, countMatrix tau trajs i j
            = countMatrix tau (trajs.filter (fun t => tau + 1 ≤ t.length)) i j) := by
  refine ⟨?_, ?_, ?_⟩
  · unfold countEstimator
    by_cases h : totalCounts tau trajs = 0
    · simp [h]
    · simp [h]
  · intro t ht A i j
    rw [countOne_apply, slidingCount_short tau t ht, Nat.add_zero]
  · intro ⟨t, htmem, htlen⟩
    constructor
    · unfold countEstimator
      have hpos : 0 < totalCounts tau trajs := by
        unfold totalCounts
        have hmem : trajContribution tau t ∈ trajs.map (trajContribution tau) :=
          List.mem_map_of_mem _ htmem
        have hc : 0 < trajContribution tau t := by
          unfold trajContribution; omega
        calc 0 < trajContribution tau t := hc
          _ ≤ (trajs.map (trajContribution tau)).sum :=
            List.single_le_sum (fun _ _ => Nat.zero_le _) _ hmem
      rw [if_neg (by omega)]
    · intro i j
      rw [countMatrix_apply, countMatrix_apply]
      exact specCount_filter_long tau trajs i j

theorem claim7_witness :
    (([0, 1] : DTraj).length < 2 + 1)
    ∧ (∃ t ∈ ([[0, 1], [0, 1, 0]] : List DTraj), 2 + 1 ≤ t.length)
    ∧ (countEstimator 2 [[0, 1], [0, 1, 0]]
        = Except.error EstimationError.insufficientData
        ↔ totalCounts 2 [[0, 1], [0, 1, 0]] = 0)
    ∧ (∀ (A : ℕ → ℕ → ℕ) (i j : ℕ), countOne 2 [0, 1] A i j = A i j)
    ∧ (countEstimator 2 [[0, 1], [0, 1, 0]]
        = Except.ok (countMatrix 2 [[0, 1], [0, 1, 0]])) := by
  have hshort : (([0, 1] : DTraj)).length < 2 + 1 := by decide
  have hlong : ∃ t ∈ ([[0, 1], [0, 1, 0]] : List DTraj), 2 + 1 ≤ t.length :=
    ⟨[0, 1, 0], by decide, by decide⟩
  have h := claim7_insufficient_data 2 [[0, 1], [0, 1, 0]]
  exact ⟨hshort, hlong, h.1, fun A i j => h.2.1 [0, 1] hshort A i j,
    (h.2.2 hlong).1⟩

/-- Modelled from the spec (ConnectivityAnalyzer, §4.2, reversible mode):
an edge between states i and j is considered only if BOTH count[i][j] > 0
AND count[j][i] > 0 — both directions observed. -/
def revEdge (n : ℕ) (C : Fin n → Fin n → ℕ) (i j : Fin n) : Prop :=
  0 < C i j ∧ 0 < C j i

instance revEdgeDecidable (n : ℕ) (C : Fin n → Fin n → ℕ) (i j : Fin n) :
    Decidable (revEdge n C i j) := by
  unfold revEdge
  infer_instance

/-- Modelled from the spec (ConnectivityAnalyzer, §4.2): one round of
breadth-first expansion of a candidate connected set along reversible
edges. -/
def compStep (n : ℕ) (C : Fin n → Fin n → ℕ) (S : Finset (Fin n)) :
    Finset (Fin n) :=
  S ∪ Finset.univ.filter (fun j => ∃ i ∈ S, revEdge n C i j)

/-- Modelled from the spec (ConnectivityAnalyzer, §4.2): the reversibly
connected component of state i, obtained by n rounds of expansion (enough
to saturate on n states). -/
def component (n : ℕ) (C : Fin n → Fin n → ℕ) (i : Fin n) : Finset (Fin n) :=
  Nat.iterate (compStep n C) n {i}

/-- Modelled from the spec (§4.2): the count mass retained by a candidate
state set — the total number of transition counts between its members. -/
def massOf (n : ℕ) (C : Fin n → Fin n → ℕ) (S : Finset (Fin n)) : ℕ :=
  ∑ i in S, ∑ j in S, C i j

/-- Modelled from the spec (ConnectivityAnalyzer, §4.2): the active set is
the reversibly connected component retaining the largest count mass. -/
def activeSet (n : ℕ) (C : Fin n → Fin n → ℕ) : Finset (Fin n) :=
  (List.finRange n).foldl
    (fun best i =>
      if massOf n C best < massOf n C (component n C i) then component n C i
      else best) ∅

theorem compStep_subset (n : ℕ) (C : Fin n → Fin n → ℕ) (S T : Finset (Fin n))
    (hclosed : ∀ i ∈ T, ∀ j, j ∉ T → C i j = 0) (hST : S ⊆ T) :
    compStep n C S ⊆ T := by
  intro j hj
  rcases Finset.mem_union.mp hj with hj | hj
  · exact hST hj
  · rcases Finset.mem_filter.mp hj with ⟨-, i, hiS, hedge⟩
    by_contra hjT
    have h0 : C i j = 0 := hclosed i (hST hiS) j hjT
    exact absurd hedge.1 (by omega)

theorem component_subset (n : ℕ) (C : Fin n → Fin n → ℕ) (T : Finset (Fin n))
    (hclosed : ∀ i ∈ T, ∀ j, j ∉ T → C i j = 0) (s : Fin n) (hs : s ∈ T) :
    component n C s ⊆ T := by
  unfold component
  have key : ∀ (k : ℕ) (S : Finset (Fin n)), S ⊆ T →
      Nat.iterate (compStep n C) k S ⊆ T := by
    intro k
    induction k with
    | zero => intro S hS; simpa using hS
    | succ k ih =>
        intro S hS
        rw [Function.iterate_succ_apply']
        exact compStep_subset n C _ T hclosed (ih S hS)
  exact key n {s} (Finset.singleton_subset_iff.mpr hs)

/-- Modelled from the spec (Scenario B, §8): the count matrix obtained from
two trajectories confined to the disjoint state groups {0,1} and {2,3}, at
lag 1. -/
def scenarioB : Fin 4 → Fin 4 → ℕ :=
  fun i j => countMatrix 1 [[0, 1, 0, 1, 0], [2, 3, 2]] i.val j.val

/-- C4: under the default reversible connectivity mode, an edge i→j enters
the connectivity graph only when both count[i][j] > 0 and count[j][i] > 0;
for any state group with no outgoing counts the analyzer never merges it
with the outside (the component of any member stays inside the group); and
for Scenario B — two trajectories confined to the disjoint groups {0,1} and
{2,3} with no inter-group transitions — the active set equals the larger
group by count mass, namely {0,1}. -/
theorem claim4_reversible_connectivity (n : ℕ) (C : Fin n → Fin n → ℕ) :
    (∀ i j : Fin n, revEdge n C i j → 0 < C i j ∧ 0 < C j i)
    ∧ (∀ T : Finset (Fin n), (∀ i ∈ T, ∀ j, j ∉ T → C i j = 0) →
        ∀ s ∈ T, component n C s ⊆ T)
    ∧ (activeSet 4 scenarioB = ({0, 1} : Finset (Fin 4))
        ∧ massOf 4 scenarioB ({2, 3} : Finset (Fin 4))
            < massOf 4 scenarioB ({0, 1} : Finset (Fin 4))) := by
  refine ⟨fun i j h => h, fun T hT s hs => component_subset n C T hT s hs, ?_, ?_⟩
  · decide
  · decide

theorem claim4_witness :
    revEdge 4 scenarioB 0 1
    ∧ (0 < scenarioB 0 1 ∧ 0 < scenarioB 1 0)
    ∧ (∀ i ∈ ({0, 1} : Finset (Fin 4)), ∀ j, j ∉ ({0, 1} : Finset (Fin 4)) →
        scenarioB i j = 0)
    ∧ component 4 scenarioB 0 ⊆ ({0, 1} : Finset (Fin 4))
    ∧ activeSet 4 scenarioB = ({0, 1} : Finset (Fin 4)) := by
  have hedge : revEdge 4 scenarioB 0 1 := by decide
  have hclosed : ∀ i ∈ ({0, 1} : Finset (Fin 4)), ∀ j,
      j ∉ ({0, 1} : Finset (Fin 4)) → scenarioB i j = 0 := by decide
  have h := claim4_reversible_connectivity 4 scenarioB
  exact ⟨hedge, h.1 0 1 hedge, hclosed,
    h.2.1 ({0, 1} : Finset (Fin 4)) hclosed 0 (by decide), h.2.2.1⟩

/-- Modelled from the spec (TransitionMatrixEstimator, §4.3): the total
counts of row i of a count matrix. -/
def rowSum (n : ℕ) (C : Fin n → Fin n → ℕ) (i : Fin n) : ℕ := ∑ j, C i j

/-- Modelled from the spec (TransitionMatrixEstimator, §4.3, non-reversible
mode): row-normalize the counts directly, P_ij = C_ij / Σ_k C_ik. -/
def transitionNonrev (n : ℕ) (C : Fin n → Fin n → ℕ) (i j : Fin n) : ℚ :=
  (C i j : ℚ) / (rowSum n C i : ℚ)

/-- Modelled from the spec (TransitionMatrixEstimator, §4.3, reversible
mode): the symmetrized count matrix C_ij + C_ji underlying the
detailed-balance-constrained estimate. -/
def csym (n : ℕ) (C : Fin n → Fin n → ℕ) (i j : Fin n) : ℕ := C i j + C j i

/-- Modelled from the spec (TransitionMatrixEstimator, §4.3, reversible
mode): the external library's iterative detailed-balance solver is not in
src/; it is modelled by its fixed point for the symmetrized counts — the
row normalization of C_ij + C_ji, which satisfies detailed balance with
respect to the stationary distribution proportional to the symmetrized row
sums. -/
def transitionRev (n : ℕ) (C : Fin n → Fin n → ℕ) (i j : Fin n) : ℚ :=
  (csym n C i j : ℚ) / (rowSum n (csym n C) i : ℚ)

/-- Modelled from the spec (SpectralAnalyzer, §4.4): total symmetrized count
mass, the normalization constant of the stationary distribution. -/
def symTotal (n : ℕ) (C : Fin n → Fin n → ℕ) : ℕ :=
  ∑ i, rowSum n (csym n C) i

/-- Modelled from the spec (StationaryDistribution, §3 and §4.4): the
stationary vector of the reversible transition matrix, normalized to sum
to 1 — proportional to the symmetrized row sums. -/
def statDist (n : ℕ) (C : Fin n → Fin n → ℕ) (i : Fin n) : ℚ :=
  (rowSum n (csym n C) i : ℚ) / (symTotal n C : ℚ)

/-- Modelled from the spec (§4.4 and §7): the stationary-distribution
accessor checks for all-positive entries and raises
DegenerateStationaryDistributionError otherwise. -/
def stationaryDistribution (n : ℕ) (C : Fin n → Fin n → ℕ) :
    Except EstimationError (Fin n → ℚ) :=
  if ∀ i, 0 < statDist n C i then Except.ok (statDist n C)
  else Except.error EstimationError.degenerateStationaryDistribution

theorem normalizeRow_props (n : ℕ) (D : Fin n → Fin n → ℕ) (i : Fin n)
    (h : 0 < rowSum n D i) :
    (∑ j, ((D i j : ℚ) / (rowSum n D i : ℚ)) = 1)
    ∧ ∀ j, 0 ≤ (D i j : ℚ) / (rowSum n D i : ℚ)
        ∧ (D i j : ℚ) / (rowSum n D i : ℚ) ≤ 1 := by
  have hRpos : (0 : ℚ) < (rowSum n D i : ℚ) := by exact_mod_cast h
  have hR : ((rowSum n D i : ℚ)) ≠ 0 := ne_of_gt hRpos
  constructor
  · rw [← Finset.sum_div]
    rw [show ∑ j, (D i j : ℚ) = ((∑ j, D i j : ℕ) : ℚ) from (Nat.cast_sum _ _).symm]
    rw [show (∑ j, D i j) = rowSum n D i from rfl]
    exact div_self hR
  · intro j
    constructor
    · exact div_nonneg (Nat.cast_nonneg _) (Nat.cast_nonneg _)
    · rw [div_le_one hRpos]
      have hle : D i j ≤ rowSum n D i :=
        Finset.single_le_sum (fun _ _ => Nat.zero_le _) (Finset.mem_univ j)
      exact_mod_cast hle

/-- C1: for every count matrix, in both the non-reversible and the
reversible estimation modes, every row of the estimated transition matrix
whose (symmetrized) counts are positive sums exactly to 1 (hence within the
1e-10 floating tolerance) and every entry lies in [0,1]. -/
theorem claim1_rows_sum_to_one (n : ℕ) (C : Fin n → Fin n → ℕ) :
    (∀ i : Fin n, 0 < rowSum n C i →
      (∑ j, transitionNonrev n C i j = 1
        ∧ ∀ j, 0 ≤ transitionNonrev n C i j ∧ transitionNonrev n C i j ≤ 1))
    ∧ (∀ i : Fin n, 0 < rowSum n (csym n C) i →
      (∑ j, transitionRev n C i j = 1
        ∧ ∀ j, 0 ≤ transitionRev n C i j ∧ transitionRev n C i j ≤ 1)) := by
  constructor
  · intro i h
    exact normalizeRow_props n C i h
  · intro i h
    exact normalizeRow_props n (csym n C) i h

/-- Modelled from the spec: a concrete 2-state count matrix with entries
[[1,2],[3,4]], used to exercise the estimators. -/
def exC : Fin 2 → Fin 2 → ℕ := fun i j => 2 * i.val + j.val + 1

theorem claim1_witness :
    (0 < rowSum 2 exC 0)
    ∧ (∑ j, transitionNonrev 2 exC 0 j = 1
        ∧ ∀ j, 0 ≤ transitionNonrev 2 exC 0 j ∧ transitionNonrev 2 exC 0 j ≤ 1)
    ∧ (0 < rowSum 2 (csym 2 exC) 0)
    ∧ (∑ j, transitionRev 2 exC 0 j = 1
        ∧ ∀ j, 0 ≤ transitionRev 2 exC 0 j ∧ transitionRev 2 exC 0 j ≤ 1) :=
  ⟨by decide, (claim1_rows_sum_to_one 2 exC).1 0 (by decide),
   by decide, (claim1_rows_sum_to_one 2 exC).2 0 (by decide)⟩

theorem csym_symm (n : ℕ) (C : Fin n → Fin n → ℕ) (i j : Fin n) :
    csym n C i j = csym n C j i := by
  unfold csym
  omega

theorem statDist_mul_transitionRev (n : ℕ) (C : Fin n → Fin n → ℕ)
    (h : ∀ i, 0 < rowSum n (csym n C) i) (i j : Fin n) :
    statDist n C i * transitionRev n C i j
      = (csym n C i j : ℚ) / (symTotal n C : ℚ) := by
  have hRiQ : (0 : ℚ) < (rowSum n (csym n C) i : ℚ) := by exact_mod_cast h i
  have hRi : ((rowSum n (csym n C) i : ℚ)) ≠ 0 := ne_of_gt hRiQ
  have hTnat : 0 < symTotal n C := by
    unfold symTotal
    calc 0 < rowSum n (csym n C) i := h i
      _ ≤ ∑ k, rowSum n (csym n C) k :=
        Finset.single_le_sum (fun _ _ => Nat.zero_le _) (Finset.mem_univ i)
  have hTQ : ((symTotal n C : ℚ)) ≠ 0 := by
    have : (0 : ℚ) < (symTotal n C : ℚ) := by exact_mod_cast hTnat
    exact ne_of_gt this
  unfold statDist transitionRev
  field_simp
  ring

/-- C3: for every reversible estimation on a count matrix whose symmetrized
row sums are all positive, the stationary distribution and the reversible
transition matrix satisfy detailed balance, π_i P_ij = π_j P_ji, exactly
(hence within any tolerance) for all pairs of states. -/
theorem claim3_detailed_balance (n : ℕ) (C : Fin n → Fin n → ℕ)
    (h : ∀ i, 0 < rowSum n (csym n C) i) (i j : Fin n) :
    statDist n C i * transitionRev n C i j
      = statDist n C j * transitionRev n C j i := by
  rw [statDist_mul_transitionRev n C h i j, statDist_mul_transitionRev n C h j i,
    csym_symm n C i j]

theorem claim3_witness :
    (∀ i, 0 < rowSum 2 (csym 2 exC) i)
    ∧ statDist 2 exC 0 * transitionRev 2 exC 0 1
        = statDist 2 exC 1 * transitionRev 2 exC 1 0 :=
  ⟨by decide, claim3_detailed_balance 2 exC (by decide) 0 1⟩

/-- C2: for every reversible estimation on a count matrix whose symmetrized
row sums over the (non-empty) active set are all positive — the
irreducibility guarantee of the connectivity restriction — the
stationary-distribution accessor returns (without error) the left
eigenvector of the reversible transition matrix for eigenvalue 1,
normalized to sum to 1, with every entry strictly positive; and for any
count matrix with a non-positive stationary entry it raises
DegenerateStationaryDistributionError instead. -/
theorem claim2_stationary_distribution (n : ℕ) (C : Fin n → Fin n → ℕ)
    (hn : 0 < n) (h : ∀ i, 0 < rowSum n (csym n C) i) :
    stationaryDistribution n C = Except.ok (statDist n C)
    ∧ (∑ i, statDist n C i = 1)
    ∧ (∀ i, 0 < statDist n C i)
    ∧ (∀ j, ∑ i, statDist n C i * transitionRev n C i j = statDist n C j)
    ∧ (∀ D : Fin n → Fin n → ℕ, ¬ (∀ i, 0 < statDist n D i) →
        stationaryDistribution n D
          = Except.error EstimationError.degenerateStationaryDistribution) := by
  have hTnat : 0 < symTotal n C := by
    unfold symTotal
    exact Finset.sum_pos (fun i _ => h i) ⟨⟨0, hn⟩, Finset.mem_univ _⟩
  have hTQ : (0 : ℚ) < (symTotal n C : ℚ) := by exact_mod_cast hTnat
  have hpos : ∀ i, 0 < statDist n C i := by
    intro i
    unfold statDist
    exact div_pos (by exact_mod_cast h i) hTQ
  refine ⟨?_, ?_, hpos, ?_, ?_⟩
  · unfold stationaryDistribution
    rw [if_pos hpos]
  · unfold statDist
    rw [← Finset.sum_div,
      show ∑ i, ((rowSum n (csym n C) i : ℚ))
          = ((∑ i, rowSum n (csym n C) i : ℕ) : ℚ) from (Nat.cast_sum _ _).symm,
      show (∑ i, rowSum n (csym n C) i) = symTotal n C from rfl]
    exact div_self (ne_of_gt hTQ)
  · intro j
    calc ∑ i, statDist n C i * transitionRev n C i j
        = ∑ i, ((csym n C i j : ℚ) / (symTotal n C : ℚ)) :=
          Finset.sum_congr rfl (fun i _ => statDist_mul_transitionRev n C h i j)
      _ = (∑ i, (csym n C i j : ℚ)) / (symTotal n C : ℚ) :=
          (Finset.sum_div _ _ _).symm
      _ = (∑ i, (csym n C j i : ℚ)) / (symTotal n C : ℚ) := by
          rw [Finset.sum_congr rfl (fun i _ => by rw [csym_symm n C i j])]
      _ = ((rowSum n (csym n C) j : ℕ) : ℚ) / (symTotal n C : ℚ) := by
          rw [show ∑ i, ((csym n C j i : ℚ))
              = ((∑ i, csym n C j i : ℕ) : ℚ) from (Nat.cast_sum _ _).symm]
          rfl
      _ = statDist n C j := rfl
  · intro D hD
    unfold stationaryDistribution
    rw [if_neg hD]

theorem claim2_witness :
    (0 < 2)
    ∧ (∀ i, 0 < rowSum 2 (csym 2 exC) i)
    ∧ (stationaryDistribution 2 exC = Except.ok (statDist 2 exC)
        ∧ (∑ i, statDist 2 exC i = 1)
        ∧ (∀ i, 0 < statDist 2 exC i)
        ∧ (∀ j, ∑ i, statDist 2 exC i * transitionRev 2 exC i j
            = statDist 2 exC j)
        ∧ (∀ D : Fin 2 → Fin 2 → ℕ, ¬ (∀ i, 0 < statDist 2 D i) →
            stationaryDistribution 2 D
              = Except.error EstimationError.degenerateStationaryDistribution)) :=
  ⟨by decide, by decide, claim2_stationary_distribution 2 exC (by decide) (by decide)⟩

/-- Modelled from the spec (TransitionMatrix, §3): a matrix is
row-stochastic when every row sums to 1 and every entry is
non-negative. -/
def rowStochastic (n : ℕ) (P : Fin n → Fin n → ℚ) : Prop :=
  ∀ i, (∑ j, P i j = 1) ∧ ∀ j, 0 ≤ P i j

/-- Modelled from the spec (Eigenpairs, §3): (lam, v) is a right eigenpair
of P when P v = lam v componentwise. -/
def isRightEigenpair (n : ℕ) (P : Fin n → Fin n → ℚ) (lam : ℚ)
    (v : Fin n → ℚ) : Prop :=
  ∀ i, ∑ j, P i j * v j = lam * v i

/-- Modelled from the spec (Eigenpairs, §3): the constant-one vector. -/
def onesVec (n : ℕ) : Fin n → ℚ := fun _ => 1

/-- C5: for every valid (row-stochastic) transition matrix, the constant-one
vector is a right eigenvector for eigenvalue 1, and every eigenvalue
satisfies |λ| ≤ 1 — hence when the eigenpairs are sorted by descending
magnitude the top eigenvalue has magnitude exactly 1 and index 0 can carry
the constant-one eigenvector. -/
theorem claim5_top_eigenpair (n : ℕ) (P : Fin n → Fin n → ℚ)
    (h : rowStochastic n P) :
    isRightEigenpair n P 1 (onesVec n)
    ∧ ∀ (lam : ℚ) (v : Fin n → ℚ), v ≠ 0 → isRightEigenpair n P lam v →
        |lam| ≤ 1 := by
  constructor
  · intro i
    unfold onesVec
    simp only [mul_one, one_mul]
    exact (h i).1
  · intro lam v hv hev
    obtain ⟨i0, hi0⟩ : ∃ i0, v i0 ≠ 0 := Function.ne_iff.mp hv
    obtain ⟨m, -, hm⟩ :=
      Finset.exists_max_image Finset.univ (fun i => |v i|) ⟨i0, Finset.mem_univ _⟩
    have hmpos : 0 < |v m| :=
      lt_of_lt_of_le (abs_pos.mpr hi0) (hm i0 (Finset.mem_univ _))
    have key : |lam| * |v m| ≤ 1 * |v m| := by
      rw [← abs_mul, ← hev m, one_mul]
      calc |∑ j, P m j * v j| ≤ ∑ j, |P m j * v j| :=
            Finset.abs_sum_le_sum_abs _ _
        _ = ∑ j, P m j * |v j| := by
            refine Finset.sum_congr rfl (fun j _ => ?_)
            rw [abs_mul, abs_of_nonneg ((h m).2 j)]
        _ ≤ ∑ j, P m j * |v m| :=
            Finset.sum_le_sum (fun j _ =>
              mul_le_mul_of_nonneg_left (hm j (Finset.mem_univ _)) ((h m).2 j))
        _ = |v m| := by
            rw [← Finset.sum_mul, (h m).1, one_mul]
    exact le_of_mul_le_mul_right key hmpos

/-- Modelled from the spec: a concrete 2-state row-stochastic matrix with
all entries one half, used to exercise the spectral analyzer. -/
def exP : Fin 2 → Fin 2 → ℚ := fun _ _ => (1 : ℚ) / 2

theorem claim5_witness :
    rowStochastic 2 exP
    ∧ (isRightEigenpair 2 exP 1 (onesVec 2)
        ∧ ∀ (lam : ℚ) (v : Fin 2 → ℚ), v ≠ 0 → isRightEigenpair 2 exP lam v →
            |lam| ≤ 1) := by
  have hP : rowStochastic 2 exP := by
    intro i
    constructor
    · rw [Fin.sum_univ_two]
      norm_num [exP]
    · intro j
      norm_num [exP]
  exact ⟨hP, claim5_top_eigenpair 2 exP hP⟩

/-- Modelled from the spec (ImpliedTimescale, §3): the result of an
implied-timescale computation — a finite relaxation time, or infinity (the
disconnectivity signal). -/
inductive TimescaleResult where
  | infinite
  | finite (t : ℝ)

/-- Modelled from the spec (ImpliedTimescale, §3 and §4.4): the implied
timescale of an eigenvalue `lam` at lag time `lag`: t = -lag / ln |lam|,
reported as infinite when |lam| is within tolerance `tol` of 1 (or larger)
— the disconnectivity signal — or when lam = 0. -/
noncomputable def impliedTimescale (lag tol lam : ℚ) : TimescaleResult :=
  if 1 - tol ≤ |lam| ∨ lam = 0 then TimescaleResult.infinite
  else TimescaleResult.finite (-(lag : ℝ) / Real.log |(lam : ℝ)|)

/-- C6: for a positive lag and non-negative tolerance, the implied timescale
of an eigenvalue λ is reported as infinite whenever |λ| is within the
tolerance of 1 (never as an invented finite value), and every finite
reported value t equals -lag/ln|λ| — a positive time satisfying the
defining relation exp(-lag/t) = |λ|. -/
theorem claim6_implied_timescale (lag tol lam : ℚ) (hlag : 0 < lag)
    (htol : 0 ≤ tol) :
    (1 - tol ≤ |lam| → impliedTimescale lag tol lam = TimescaleResult.infinite)
    ∧ ∀ t : ℝ, impliedTimescale lag tol lam = TimescaleResult.finite t →
        t = -(lag : ℝ) / Real.log |(lam : ℝ)|
        ∧ 0 < t
        ∧ Real.exp (-(lag : ℝ) / t) = |(lam : ℝ)| := by
  constructor
  · intro h
    unfold impliedTimescale
    rw [if_pos (Or.inl h)]
  · intro t ht
    unfold impliedTimescale at ht
    by_cases hcond : 1 - tol ≤ |lam| ∨ lam = 0
    · rw [if_pos hcond] at ht
      exact absurd ht (by intro hh; cases hh)
    · rw [if_neg hcond] at ht
      push_neg at hcond
      obtain ⟨habs, hne⟩ := hcond
      have hteq : t = -(lag : ℝ) / Real.log |(lam : ℝ)| :=
        (TimescaleResult.finite.inj ht).symm
      have hx0 : (0 : ℝ) < |(lam : ℝ)| := by
        rw [abs_pos]
        exact_mod_cast hne
      have hx1 : |(lam : ℝ)| < 1 := by
        have h1 : |lam| < 1 - tol := habs
        have h2 : |lam| < 1 := lt_of_lt_of_le h1 (by linarith)
        calc |(lam : ℝ)| = ((|lam| : ℚ) : ℝ) := by push_cast; ring
          _ < 1 := by exact_mod_cast h2
      have hlog : Real.log |(lam : ℝ)| < 0 := Real.log_neg hx0 hx1
      have hlagR : (0 : ℝ) < (lag : ℝ) := by exact_mod_cast hlag
      have htpos : 0 < t := by
        rw [hteq, neg_div, neg_pos]
        exact div_neg_of_pos_of_neg hlagR hlog
      refine ⟨hteq, htpos, ?_⟩
      have hstep : -(lag : ℝ) / t = Real.log |(lam : ℝ)| := by
        rw [hteq]
        field_simp
      rw [hstep, Real.exp_log hx0]

theorem claim6_witness :
    ((0 : ℚ) < 1) ∧ ((0 : ℚ) ≤ 0)
    ∧ ((1 - 0 ≤ |(1 : ℚ)| → impliedTimescale 1 0 1 = TimescaleResult.infinite)
        ∧ ∀ t : ℝ, impliedTimescale 1 0 1 = TimescaleResult.finite t →
            t = -((1 : ℚ) : ℝ) / Real.log |((1 : ℚ) : ℝ)|
            ∧ 0 < t
            ∧ Real.exp (-((1 : ℚ) : ℝ) / t) = |((1 : ℚ) : ℝ)|)
    ∧ impliedTimescale 1 0 1 = TimescaleResult.infinite
    ∧ (1 - 0 ≤ |((1 : ℚ) / 2)| → impliedTimescale 1 0 (1 / 2)
        = TimescaleResult.infinite)
    ∧ (∀ t : ℝ, impliedTimescale 1 0 (1 / 2) = TimescaleResult.finite t →
        t = -((1 : ℚ) : ℝ) / Real.log |(((1 : ℚ) / 2 : ℚ) : ℝ)|
        ∧ 0 < t
        ∧ Real.exp (-((1 : ℚ) : ℝ) / t) = |(((1 : ℚ) / 2 : ℚ) : ℝ)|) := by
  have h1 := claim6_implied_timescale 1 0 1 zero_lt_one (le_refl 0)
  have h2 := claim6_implied_timescale 1 0 (1 / 2) zero_lt_one (le_refl 0)
  exact ⟨zero_lt_one, le_refl 0, h1, h1.1 (by simp), h2.1, h2.2⟩

/-- Modelled from the spec (ChapmanKolmogorovValidator, §4.6): matrix
multiplication of group-to-group matrices. -/
def matmul (g : ℕ) (A B : Fin g → Fin g → ℚ) : Fin g → Fin g → ℚ :=
  fun i j => ∑ k, A i k * B k j

/-- Modelled from the spec (ChapmanKolmogorovValidator, §4.6): the m-th
matrix power, identity at m = 0. -/
def matpow (g : ℕ) (A : Fin g → Fin g → ℚ) : ℕ → Fin g → Fin g → ℚ
  | 0 => fun i j => if i = j then 1 else 0
  | m + 1 => matmul g (matpow g A m) A

/-- Modelled from the spec (ChapmanKolmogorovValidator, §4.6): the
group-to-group transition probability matrix of a transition matrix P with
stationary weights w under a metastable assignment: the w-weighted average
of the transition probability from group a into group b. -/
def groupMatrix (n g : ℕ) (P : Fin n → Fin n → ℚ) (w : Fin n → ℚ)
    (assign : Fin n → Fin g) (a b : Fin g) : ℚ :=
  (∑ i, if assign i = a then w i * ∑ j, (if assign j = b then P i j else 0) else 0)
    / (∑ i, if assign i = a then w i else 0)

/-- Modelled from the spec (ChapmanKolmogorovValidator, §4.6): an
independent re-estimation at the given lag — count matrix, reversible
transition matrix and stationary distribution — coarse-grained to the
metastable groups. -/
def estimatedGroupMatrix (n g : ℕ) (trajs : List DTraj) (lag : ℕ)
    (assign : Fin n → Fin g) : Fin g → Fin g → ℚ :=
  groupMatrix n g
    (transitionRev n (fun i j => countMatrix lag trajs i.val j.val))
    (statDist n (fun i j => countMatrix lag trajs i.val j.val))
    assign

/-- Modelled from the spec (ChapmanKolmogorovValidator, §4.6): for each
multiple m = 1..k_max, the pair of the group matrix re-estimated at lag
m·τ ("estimated") and the m-th power of the lag-τ group matrix
("predicted"), both exposed to the caller. -/
def ckTest (n g : ℕ) (trajs : List DTraj) (tau : ℕ) (assign : Fin n → Fin g)
    (kmax : ℕ) : List ((Fin g → Fin g → ℚ) × (Fin g → Fin g → ℚ)) :=
  (List.range kmax).map (fun k =>
    (estimatedGroupMatrix n g trajs ((k + 1) * tau) assign,
     matpow g (estimatedGroupMatrix n g trajs tau assign) (k + 1)))

/-- C9: the Chapman-Kolmogorov test exposes one entry per multiple
m = 1..k_max, whose first component is the group matrix of an independent
re-estimation at lag m·τ and whose second component is the m-th matrix
power of the lag-τ model's group matrix. -/
theorem claim9_ck_test (n g : ℕ) (trajs : List DTraj) (tau : ℕ)
    (assign : Fin n → Fin g) (kmax : ℕ) :
    (ckTest n g trajs tau assign kmax).length = kmax
    ∧ ∀ m : ℕ, 1 ≤ m → m ≤ kmax →
        (ckTest n g trajs tau assign kmax)[m - 1]?
          = some (estimatedGroupMatrix n g trajs (m * tau) assign,
              matpow g (estimatedGroupMatrix n g trajs tau assign) m) := by
  constructor
  · unfold ckTest
    rw [List.length_map, List.length_range]
  · intro m h1 hk
    unfold ckTest
    rw [List.getElem?_map, List.getElem?_range (by omega), Option.map_some']
    rw [show m - 1 + 1 = m from by omega]

theorem claim9_witness :
    (1 ≤ 1) ∧ (1 ≤ 2)
    ∧ (ckTest 2 1 [[0, 1, 0]] 1 (fun _ => 0) 2).length = 2
    ∧ (ckTest 2 1 [[0, 1, 0]] 1 (fun _ => 0) 2)[1 - 1]?
        = some (estimatedGroupMatrix 2 1 [[0, 1, 0]] (1 * 1) (fun _ => 0),
            matpow 1 (estimatedGroupMatrix 2 1 [[0, 1, 0]] 1 (fun _ => 0)) 1) := by
  have h := claim9_ck_test 2 1 [[0, 1, 0]] 1 (fun _ => 0) 2
  exact ⟨le_refl 1, by decide, h.1, h.2 1 (le_refl 1) (by decide)⟩

/-- Modelled from the spec (ConnectivityAnalyzer, §4.2 and MarkovModel,
§4.5): the active set as an ordered list of original state indices. -/
def activeList (n : ℕ) (C : Fin n → Fin n → ℕ) : List (Fin n) :=
  (activeSet n C).sort (· ≤ ·)

/-- Modelled from the spec (MarkovModel, §4.5): the count matrix restricted
to the active set, re-indexed by positions in the ordered active list. -/
def restrictedCounts (n : ℕ) (C : Fin n → Fin n → ℕ) :
    Fin (activeList n C).length → Fin (activeList n C).length → ℕ :=
  fun a b => C ((activeList n C).get a) ((activeList n C).get b)

/-- Modelled from the spec (MarkovModel, §4.5): the stationary distribution
of the estimated model — one entry per active state, indexed by position in
the active list. -/
def modelPi (n : ℕ) (C : Fin n → Fin n → ℕ) :
    Fin (activeList n C).length → ℚ :=
  statDist (activeList n C).length (restrictedCounts n C)

/-- Modelled from the spec (MarkovModel, §4.5): look up a per-active-state
output vector at an original state label — the entry at the label's
position in the active list, or none when the label was dropped from the
active set. -/
def valueOfLabel (n : ℕ) (C : Fin n → Fin n → ℕ)
    (vec : Fin (activeList n C).length → ℚ) (s : Fin n) : Option ℚ :=
  if h : s ∈ activeList n C then
    some (vec ⟨(activeList n C).indexOf s, List.indexOf_lt_length.mpr h⟩)
  else none

/-- C10: every per-state output vector of an estimated model has exactly one
entry per active state ((activeList).length = card of the active set);
position k corresponds to the original state label activeList[k] — looking
up that label returns exactly entry k; looking up a label outside the
active set returns nothing; and when states are excluded from the active
set the output vectors are strictly shorter than the total number of
states. -/
theorem claim10_active_set_indexing (n : ℕ) (C : Fin n → Fin n → ℕ) :
    ((activeList n C).length = (activeSet n C).card)
    ∧ (∀ vec : Fin (activeList n C).length → ℚ,
        ∀ k : Fin (activeList n C).length,
          valueOfLabel n C vec ((activeList n C).get k) = some (vec k))
    ∧ (∀ vec : Fin (activeList n C).length → ℚ, ∀ s : Fin n,
        s ∉ activeSet n C → valueOfLabel n C vec s = none)
    ∧ (activeSet n C ≠ Finset.univ → (activeList n C).length < n) := by
  have hnodup : (activeList n C).Nodup := Finset.sort_nodup _ _
  have hlen : (activeList n C).length = (activeSet n C).card :=
    Finset.length_sort _
  refine ⟨hlen, ?_, ?_, ?_⟩
  · intro vec k
    have hmem : (activeList n C).get k ∈ activeList n C := (activeList n C).get_mem _ _
    unfold valueOfLabel
    rw [dif_pos hmem]
    congr 1
    apply congrArg
    apply Fin.ext
    exact List.get_indexOf hnodup k
  · intro vec s hs
    have hnot : s ∉ activeList n C := by
      unfold activeList
      rw [Finset.mem_sort]
      exact hs
    unfold valueOfLabel
    rw [dif_neg hnot]
  · intro hne
    rw [hlen]
    have hss : activeSet n C ⊂ Finset.univ :=
      lt_of_le_of_ne (Finset.subset_univ _) hne
    calc (activeSet n C).card < (Finset.univ : Finset (Fin n)).card :=
          Finset.card_lt_card hss
      _ = n := by rw [Finset.card_univ, Fintype.card_fin]

theorem claim10_witness :
    ((2 : Fin 4) ∉ activeSet 4 scenarioB)
    ∧ (activeSet 4 scenarioB ≠ Finset.univ)
    ∧ (activeList 4 scenarioB).length = (activeSet 4 scenarioB).card
    ∧ valueOfLabel 4 scenarioB (modelPi 4 scenarioB) 2 = none
    ∧ (activeList 4 scenarioB).length < 4 := by
  have h := claim10_active_set_indexing 4 scenarioB
  have h2 : (2 : Fin 4) ∉ activeSet 4 scenarioB := by decide
  have hne : activeSet 4 scenarioB ≠ Finset.univ := by decide
  exact ⟨h2, hne, h.1, h.2.2.1 (modelPi 4 scenarioB) 2 h2, h.2.2.2 hne⟩
